import Mathlib

/-!
Verification of the TSPBoltzmann annealing engine (`tsp.py`).

The development shallowly embeds the data model and operations of the
program: the square boolean net (`Net`), the consensus (energy)
functional, the distance-table completion, the annealing step, the
best-snapshot bookkeeping (with explicit heap references, to capture
Python object aliasing), path validity and path extraction.

City labels are modelled by an arbitrary linearly ordered type `C`
(the program uses JSON string keys, which are opaque ordered labels),
and numeric values (distances, penalty, bonus, consensus) by an
arbitrary linearly ordered commutative ring `α` (the program uses
Python floats; no division occurs in the energy model).  Temperatures
(which are multiplied by a fractional decay rate) are modelled by `ℚ`.
-/

namespace TSPB

/-! ## The square net of booleans (`Net`) -/

/-- The `Net.net` field: a square array of booleans, row = city, column = epoch. -/
abbrev Grid := List (List Bool)

/-- Reading cell `(i, j)` of the net (`self.net[i][j]`). -/
def getCell (g : Grid) (i j : ℕ) : Bool :=
  (g.getD i []).getD j false

/-- `Net.flip`: `self.net[i][j] = not self.net[i][j]`. -/
def flip (g : Grid) (i j : ℕ) : Grid :=
  g.set i ((g.getD i []).set j (!getCell g i j))

/-- `Net.square_iter(start_row, start_col)` with default end bounds: yields
`(i, j, net[i][j])` for `i in range(start_row, dim)`, `j in range(start_col, dim)`.
Note the column bound applies to every row. -/
def square_iter (g : Grid) (dim start_row start_col : ℕ) : List (ℕ × ℕ × Bool) :=
  (List.range' start_row (dim - start_row)).flatMap fun i =>
    (List.range' start_col (dim - start_col)).map fun j => (i, j, getCell g i j)

/-- `Net.__iter__`: all cells in row-major order. -/
def cellList (g : Grid) (dim : ℕ) : List (ℕ × ℕ × Bool) :=
  square_iter g dim 0 0

/-- `Net.num_enabled`: the number of enabled (true) cells. -/
def num_enabled (g : Grid) (dim : ℕ) : ℕ :=
  ((cellList g dim).filter fun c => c.2.2).length

/-! ## The energy model -/

section Energy

variable {α : Type} [LinearOrderedCommRing α]

/-- `BoltzmannTsp.calculate_weight`: pairwise weight of two (city, epoch) cells.
`dist` is the index-based distance lookup (`lookup_weight`), assumed total here;
its partiality is modelled separately by `lookup2`/`import_distances`. -/
def calculate_weight (penalty : α) (dist : ℕ → ℕ → α)
    (start_city start_epoch end_city end_epoch : ℕ) : α :=
  if start_city = end_city then
    (if start_epoch ≠ end_epoch then penalty else 0)
  else if start_epoch = end_epoch then penalty
  else if end_epoch = start_epoch + 1 then dist start_city end_city
  else 0

/-- Indicator factor for a boolean net element (Python multiplies by the bool). -/
def boolFac (b : Bool) : α :=
  if b then 1 else 0

/-- `BoltzmannTsp.calculate_concensus`: for every enabled cell, add `bonus` to the
bias term and scan `square_iter(start_col=start_epoch)` (all rows, columns from
the anchor's epoch on), accumulating `weight * start * end`; the result is
`weight_term - bias_term`. -/
def calculate_concensus (penalty bonus : α) (dist : ℕ → ℕ → α) (dim : ℕ) (g : Grid) : α :=
  ((cellList g dim).map fun c =>
    if c.2.2 then
      ((square_iter g dim 0 c.2.1).map fun e =>
        calculate_weight penalty dist c.1 c.2.1 e.1 e.2.1 * boolFac e.2.2).sum
    else 0).sum
  - bonus * (num_enabled g dim : α)

/-- Modelled from the spec: `cells_from(start_row, start_col)` enumerates cells
with `row in [start_row, N)`; for the first such row only columns `>= start_col`
are included, for subsequent rows all columns are included. -/
def cells_from (g : Grid) (dim start_row start_col : ℕ) : List (ℕ × ℕ × Bool) :=
  (if start_row < dim then
    (List.range' start_col (dim - start_col)).map fun j => (start_row, j, getCell g start_row j)
  else []) ++
  (List.range' (start_row + 1) (dim - (start_row + 1))).flatMap fun i =>
    (List.range dim).map fun j => (i, j, getCell g i j)

/-- Modelled from the spec: the claimed consensus value — the scan anchored at
each true cell runs over `cells_from` from that cell's own row onward, so that
each unordered pair of true cells is visited exactly once (the self-pair
contributing 0), minus `bonus` times the number of true cells. -/
def concensus_spec (penalty bonus : α) (dist : ℕ → ℕ → α) (dim : ℕ) (g : Grid) : α :=
  ((cellList g dim).map fun c =>
    if c.2.2 then
      ((cells_from g dim c.1 c.2.1).map fun e =>
        calculate_weight penalty dist c.1 c.2.1 e.1 e.2.1 * boolFac e.2.2).sum
    else 0).sum
  - bonus * (num_enabled g dim : α)

/-- The enabled cells of the net, in row-major order. -/
def trueCells (g : Grid) (dim : ℕ) : List (ℕ × ℕ × Bool) :=
  (cellList g dim).filter fun c => c.2.2

/-- The corrected characterization of `calculate_concensus`: the sum of
`calculate_weight` over all ordered pairs `(a, e)` of enabled cells with
`epoch e >= epoch a` (so pairs of distinct cells sharing an epoch are counted
from both anchors), minus `bonus` times the number of enabled cells. -/
def concensus_ordered_pairs (penalty bonus : α) (dist : ℕ → ℕ → α) (dim : ℕ) (g : Grid) : α :=
  ((trueCells g dim).map fun c =>
    (((trueCells g dim).filter fun e => c.2.1 ≤ e.2.1).map fun e =>
      calculate_weight penalty dist c.1 c.2.1 e.1 e.2.1).sum).sum
  - bonus * (num_enabled g dim : α)

end Energy

/-! ## List lemmas for the consensus claims -/

section EnergyLemmas

variable {α : Type} [LinearOrderedCommRing α]

theorem sum_map_ite_filter (l : List (ℕ × ℕ × Bool)) (f : ℕ × ℕ × Bool → α) :
    (l.map fun c => if c.2.2 then f c else 0).sum = ((l.filter fun c => c.2.2).map f).sum := by
  induction l with
  | nil => rfl
  | cons a t ih =>
    by_cases h : a.2.2
    · simp [h, ih]
    · simp [h, ih]

theorem sum_map_boolFac_filter (l : List (ℕ × ℕ × Bool)) (f : ℕ × ℕ × Bool → α) :
    (l.map fun c => f c * boolFac c.2.2).sum = ((l.filter fun c => c.2.2).map f).sum := by
  rw [← sum_map_ite_filter]
  congr 1
  apply List.map_congr_left
  intro c _
  by_cases h : c.2.2
  · simp [h, boolFac]
  · simp [h, boolFac]

theorem range_filter_le (j n : ℕ) :
    (List.range' 0 (n - 0)).filter (fun x => j ≤ x) = List.range' j (n - j) := by
  rw [Nat.sub_zero, ← List.range_eq_range']
  induction n with
  | zero => simp
  | succ n ih =>
    rw [List.range_succ, List.filter_append, ih]
    by_cases h : j ≤ n
    · have hn : n + 1 - j = (n - j) + 1 := by omega
      simp only [List.filter_cons, List.filter_nil, decide_eq_true_eq, if_pos h]
      rw [hn, List.range'_concat]
      congr 2
      omega
    · have h1 : n - j = 0 := by omega
      have h2 : n + 1 - j = 0 := by omega
      simp [h1, h2, List.filter_cons, h]

theorem square_iter_eq_filter (g : Grid) (dim j : ℕ) :
    square_iter g dim 0 j = (cellList g dim).filter fun c => j ≤ c.2.1 := by
  unfold cellList square_iter
  rw [List.filter_flatMap, List.flatMap_def, List.flatMap_def]
  congr 1
  apply List.map_congr_left
  intro i _
  rw [List.filter_map]
  have hcomp : ((fun c : ℕ × ℕ × Bool => decide (j ≤ c.2.1)) ∘ fun k => (i, k, getCell g i k))
      = fun x => decide (j ≤ x) := rfl
  rw [hcomp, range_filter_le]

end EnergyLemmas

/-! ## Claim C1 -/

/-- Claim C1 (as stated) is false: anchored at the true cell `(0,0)` of the grid
`[[T,F],[T,F]]`, the code's scan `square_iter(start_col=0)` also revisits the
pair of same-epoch true cells from the second anchor, so `calculate_concensus`
counts the unordered pair `{(0,0),(1,0)}` twice (`2 * penalty`), while the sum
over unordered pairs (via the spec's `cells_from`) counts it once. -/
theorem c1_counterexample :
    calculate_concensus (1 : ℤ) 0 (fun _ _ => 0) 2 [[true, false], [true, false]]
      ≠ concensus_spec (1 : ℤ) 0 (fun _ _ => 0) 2 [[true, false], [true, false]] := by
  decide

/-- Claim C1, amended: the consensus computed by `calculate_concensus` equals the
sum of the pairwise weight over all ordered pairs `(a, e)` of true cells with
`epoch e >= epoch a` (each unordered pair of true cells with distinct epochs is
visited exactly once, the self-pair contributes 0, but each pair of distinct
true cells sharing an epoch is visited from both anchors, because the scan
`square_iter(start_col=epoch a)` spans all rows rather than only the rows from
the anchor's own row on), minus `bonus` times the number of true cells. -/
theorem c1_amended {α : Type} [LinearOrderedCommRing α] (penalty bonus : α)
    (dist : ℕ → ℕ → α) (dim : ℕ) (g : Grid) :
    calculate_concensus penalty bonus dist dim g
      = concensus_ordered_pairs penalty bonus dist dim g := by
  unfold calculate_concensus concensus_ordered_pairs
  congr 1
  rw [sum_map_ite_filter]
  unfold trueCells
  apply congrArg List.sum
  apply List.map_congr_left
  intro c hc
  rw [sum_map_boolFac_filter, square_iter_eq_filter]
  congr 1
  rw [List.filter_filter, List.filter_filter]
  congr 1
  apply List.filter_congr
  intro x _
  exact Bool.and_comm _ _

/-! ## The annealing step (`__find_optimal_path` loop body) -/

/-- The mutable state of one annealing pass: the live net, the stored consensus,
the loop temperature, and the best-found consensus and net. -/
structure AnnealState (α : Type) where
  net : Grid
  concensus : α
  temp : α
  min_concensus : α
  min_net : Grid

/-- One iteration of the `while temp >= min_temp` loop of `__find_optimal_path`:
flip the chosen cell, recompute the consensus, accept or revert (`accept` is
the oracle for `accept_change`, whose random draw and `exp` are external),
decay the temperature, and update the best-found snapshot.  The snapshot is a
value copy here; reference aliasing is modelled separately by `NetStore`. -/
def anneal_step {α : Type} [LinearOrderedCommRing α] (penalty bonus : α)
    (dist : ℕ → ℕ → α) (dim : ℕ) (decay_rate : α) (choice : ℕ × ℕ) (accept : Bool)
    (s : AnnealState α) : AnnealState α :=
  let pre_candidate := s.concensus
  let net1 := flip s.net choice.1 choice.2
  let c1 := calculate_concensus penalty bonus dist dim net1
  let net2 := if accept then net1 else flip net1 choice.1 choice.2
  let c2 := if accept then c1 else pre_candidate
  let temp2 := s.temp * decay_rate
  let mins := if c2 < s.min_concensus then (c2, net2) else (s.min_concensus, s.min_net)
  ⟨net2, c2, temp2, mins.1, mins.2⟩

/-! ## Flip lemmas -/

theorem list_set_getD_self {β : Type} (l : List β) (i : ℕ) (d : β) (h : i < l.length) :
    l.set i (l.getD i d) = l := by
  apply List.ext_getElem?
  intro k
  rw [List.getElem?_set]
  by_cases hik : i = k
  · subst hik
    rw [if_pos rfl, if_pos h, List.getD_eq_getElem l d h, List.getElem?_eq_getElem h]
  · rw [if_neg hik]

theorem getD_set_self {β : Type} (l : List β) (i : ℕ) (a d : β) (h : i < l.length) :
    (l.set i a).getD i d = a := by
  rw [List.getD_eq_getElem?_getD, List.getElem?_set, if_pos rfl, if_pos h]
  rfl

theorem getD_set_ne {β : Type} (l : List β) (i k : ℕ) (a d : β) (h : i ≠ k) :
    (l.set i a).getD k d = l.getD k d := by
  rw [List.getD_eq_getElem?_getD, List.getElem?_set, if_neg h, ← List.getD_eq_getElem?_getD]

/-- Flipping cell `(i, j)` toggles it. -/
theorem getCell_flip_self (g : Grid) (i j dim : ℕ) (hg : g.length = dim)
    (hrows : ∀ r ∈ g, r.length = dim) (hi : i < dim) (hj : j < dim) :
    getCell (flip g i j) i j = !(getCell g i j) := by
  have hil : i < g.length := by rw [hg]; exact hi
  have hrl : (g.getD i []).length = dim := by
    rw [List.getD_eq_getElem g [] hil]
    exact hrows _ (List.getElem_mem hil)
  have hjr : j < (g.getD i []).length := by rw [hrl]; exact hj
  show ((flip g i j).getD i []).getD j false = _
  rw [show flip g i j = g.set i ((g.getD i []).set j (!getCell g i j)) from rfl]
  rw [getD_set_self g i _ [] hil, getD_set_self _ j _ false hjr]

/-- Flipping the same cell twice restores the whole grid. -/
theorem flip_flip (g : Grid) (i j dim : ℕ) (hg : g.length = dim)
    (hrows : ∀ r ∈ g, r.length = dim) (hi : i < dim) (hj : j < dim) :
    flip (flip g i j) i j = g := by
  have hil : i < g.length := by rw [hg]; exact hi
  have hrl : (g.getD i []).length = dim := by
    rw [List.getD_eq_getElem g [] hil]
    exact hrows _ (List.getElem_mem hil)
  have hjr : j < (g.getD i []).length := by rw [hrl]; exact hj
  have hb : getCell (flip g i j) i j = !(getCell g i j) :=
    getCell_flip_self g i j dim hg hrows hi hj
  have hd1 : (flip g i j).getD i [] = (g.getD i []).set j (!getCell g i j) :=
    getD_set_self g i _ [] hil
  calc flip (flip g i j) i j
      = (flip g i j).set i (((flip g i j).getD i []).set j (!getCell (flip g i j) i j)) := rfl
    _ = (flip g i j).set i (((g.getD i []).set j (!getCell g i j)).set j
          (getCell g i j)) := by rw [hb, hd1, Bool.not_not]
    _ = (flip g i j).set i ((g.getD i []).set j (getCell g i j)) := by rw [List.set_set]
    _ = (flip g i j).set i (g.getD i []) := by
          rw [show getCell g i j = (g.getD i []).getD j false from rfl,
            list_set_getD_self _ j false hjr]
    _ = (g.set i ((g.getD i []).set j (!getCell g i j))).set i (g.getD i []) := rfl
    _ = g.set i (g.getD i []) := by rw [List.set_set]
    _ = g := list_set_getD_self g i [] hil

/-- Flipping cell `(i, j)` changes no other cell. -/
theorem getCell_flip_ne (g : Grid) (i j i2 j2 : ℕ) (h : ¬(i2 = i ∧ j2 = j)) :
    getCell (flip g i j) i2 j2 = getCell g i2 j2 := by
  show ((flip g i j).getD i2 []).getD j2 false = _
  rw [show flip g i j = g.set i ((g.getD i []).set j (!getCell g i j)) from rfl]
  by_cases hi2 : i2 = i
  · subst hi2
    have hj2 : j ≠ j2 := fun hh => h ⟨rfl, hh.symm⟩
    by_cases hl : i2 < g.length
    · rw [getD_set_self g i2 _ [] hl, getD_set_ne _ j j2 _ false hj2]
      rfl
    · rw [List.getD_eq_getElem?_getD (g.set i2 _), List.getElem?_set, if_pos rfl, if_neg hl]
      show (([] : List Bool)).getD j2 false = getCell g i2 j2
      rw [show getCell g i2 j2 = (g.getD i2 []).getD j2 false from rfl,
        List.getD_eq_default g [] (by omega)]
  · rw [getD_set_ne g i i2 _ [] (fun hh => hi2 hh.symm)]
    rfl

/-! ## Claim C8 -/

/-- Claim C8: when the proposed flip of cell `(i, j)` is rejected, the revert
branch restores the state exactly — every cell of the net returns to its
pre-proposal value (the first flip changed only cell `(i, j)`, which the second
flip toggles back), and the stored consensus is reset to the pre-proposal value
`E_before = s.concensus`. -/
theorem c8_reject_restores (α : Type) [LinearOrderedCommRing α] (penalty bonus : α)
    (dist : ℕ → ℕ → α) (dim : ℕ) (decay_rate : α) (i j : ℕ) (s : AnnealState α)
    (hg : s.net.length = dim) (hrows : ∀ r ∈ s.net, r.length = dim)
    (hi : i < dim) (hj : j < dim) :
    (anneal_step penalty bonus dist dim decay_rate (i, j) false s).net = s.net
    ∧ (anneal_step penalty bonus dist dim decay_rate (i, j) false s).concensus = s.concensus
    ∧ getCell (flip s.net i j) i j = !(getCell s.net i j)
    ∧ (∀ i2 j2, ¬(i2 = i ∧ j2 = j) → getCell (flip s.net i j) i2 j2 = getCell s.net i2 j2) := by
  refine ⟨?_, ?_, getCell_flip_self s.net i j dim hg hrows hi hj,
    fun i2 j2 h2 => getCell_flip_ne s.net i j i2 j2 h2⟩
  · show (let mins := _; (AnnealState.mk (flip (flip s.net i j) i j) s.concensus
      (s.temp * decay_rate) (Prod.fst mins) (Prod.snd mins) : AnnealState α)).net = s.net
    exact flip_flip s.net i j dim hg hrows hi hj
  · rfl

/-- Concrete instantiation of `c8_reject_restores` at a 2×2 net over `ℤ`. -/
theorem c8_witness :
    (anneal_step (5 : ℤ) 1 (fun _ _ => 2) 2 1 (0, 1) false
        ⟨[[true, false], [false, true]], 3, 7, 3, [[true, false], [false, true]]⟩).net
      = [[true, false], [false, true]]
    ∧ (anneal_step (5 : ℤ) 1 (fun _ _ => 2) 2 1 (0, 1) false
        ⟨[[true, false], [false, true]], 3, 7, 3, [[true, false], [false, true]]⟩).concensus
      = 3
    ∧ getCell (flip [[true, false], [false, true]] 0 1) 0 1
      = !(getCell [[true, false], [false, true]] 0 1)
    ∧ (∀ i2 j2, ¬(i2 = 0 ∧ j2 = 1) →
        getCell (flip [[true, false], [false, true]] 0 1) i2 j2
          = getCell [[true, false], [false, true]] i2 j2) :=
  c8_reject_restores ℤ 5 1 (fun _ _ => 2) 2 1 0 1
    ⟨[[true, false], [false, true]], 3, 7, 3, [[true, false], [false, true]]⟩
    (by decide) (by decide) (by decide) (by decide)

/-! ## Claim C9 -/

/-- The temperature schedule of `__find_optimal_path`: the loop condition
`temp >= min_temp` is checked with `temp = t0 * r^i` before the `i`-th
iteration (the body multiplies `temp` by `r` exactly once), so the loop body
runs exactly `k` times iff every check before the `k`-th passes and the
`k`-th check fails. -/
def loop_runs_exactly (t0 min_temp r : ℚ) (k : ℕ) : Prop :=
  (∀ i < k, min_temp ≤ t0 * r ^ i) ∧ t0 * r ^ k < min_temp

/-- Claim C9: (1) each iteration of the annealing loop multiplies the
temperature by the decay rate exactly once, whether the flip was accepted or
rejected; (2) for positive temperatures and decay rate in `(0,1)` the loop
terminates (some exact iteration count exists); (3) with `T0 = 100`,
`Tmin = 100`, `r = 0.95` the body runs exactly once. -/
theorem c9_temperature (α : Type) [LinearOrderedCommRing α] :
    (∀ (penalty bonus : α) (dist : ℕ → ℕ → α) (dim : ℕ) (decay_rate : α)
        (choice : ℕ × ℕ) (accept : Bool) (s : AnnealState α),
      (anneal_step penalty bonus dist dim decay_rate choice accept s).temp
        = s.temp * decay_rate)
    ∧ (∀ t0 min_temp r : ℚ, 0 < t0 → 0 < min_temp → 0 < r → r < 1 →
        ∃ k, loop_runs_exactly t0 min_temp r k)
    ∧ loop_runs_exactly 100 100 (19 / 20) 1 := by
  refine ⟨fun _ _ _ _ _ _ _ _ => rfl, ?_, ?_, ?_⟩
  · intro t0 min_temp r ht0 htmin hr0 hr1
    by_cases hlt : t0 < min_temp
    · exact ⟨0, fun i hi => absurd hi (by omega), by simpa using hlt⟩
    · have hex : ∃ k, t0 * r ^ k < min_temp := by
        obtain ⟨m, hm⟩ := exists_pow_lt_of_lt_one (div_pos htmin ht0) hr1
        refine ⟨m, ?_⟩
        have := (mul_lt_mul_left ht0).mpr hm
        rwa [mul_div_cancel₀ min_temp (ne_of_gt ht0)] at this
      refine ⟨Nat.find hex, fun i hi => ?_, Nat.find_spec hex⟩
      exact le_of_not_lt (Nat.find_min hex hi)
  · intro i hi
    interval_cases i
    norm_num
  · norm_num

/-- Concrete instantiation of `c9_temperature`: the decay conjunct at an `ℤ`
state, the termination conjunct at `T0 = 50`, `Tmin = 10`, `r = 1/2`, and the
one-iteration schedule at `T0 = Tmin = 100`, `r = 19/20`. -/
theorem c9_witness :
    (anneal_step (5 : ℤ) 1 (fun _ _ => 2) 2 3 (0, 1) true
        ⟨[[true, false], [false, true]], 3, 7, 3, [[true, false], [false, true]]⟩).temp
      = 7 * 3
    ∧ (∃ k, loop_runs_exactly 50 10 (1 / 2) k)
    ∧ loop_runs_exactly 100 100 (19 / 20) 1 :=
  ⟨(c9_temperature ℤ).1 5 1 (fun _ _ => 2) 2 3 (0, 1) true
      ⟨[[true, false], [false, true]], 3, 7, 3, [[true, false], [false, true]]⟩,
    (c9_temperature ℤ).2.1 50 10 (1 / 2) (by norm_num) (by norm_num) (by norm_num)
      (by norm_num),
    (c9_temperature ℤ).2.2⟩

/-! ## Net-object aliasing (`self.net` / `self.min_net` as references)

Python assignment of objects copies references, not values.  `NetStore` makes
the references explicit: a heap of `Net` grids and the indices that `self.net`
and `self.min_net` currently point to. -/

/-- The heap of allocated `Net` grids together with the references held by
`self.net` and `self.min_net`. -/
structure NetStore where
  heap : List Grid
  net_ref : ℕ
  min_net_ref : ℕ

/-- `__init__`: allocate the net and run `self.min_net = self.net`
(line 84) — both names refer to the same object. -/
def init_store (g : Grid) : NetStore := ⟨[g], 0, 0⟩

/-- The grid currently seen through `self.net`. -/
def view_net (s : NetStore) : Grid := s.heap.getD s.net_ref []

/-- The grid currently seen through `self.min_net`. -/
def view_min_net (s : NetStore) : Grid := s.heap.getD s.min_net_ref []

/-- `self.net.flip(i, j)`: mutate the object `self.net` refers to in place. -/
def store_flip (s : NetStore) (i j : ℕ) : NetStore :=
  ⟨s.heap.set s.net_ref (flip (view_net s) i j), s.net_ref, s.min_net_ref⟩

/-- `self.min_net = deepcopy(self.net)` (line 168): allocate a fresh value copy
and point `self.min_net` at it. -/
def store_snapshot (s : NetStore) : NetStore :=
  ⟨s.heap ++ [view_net s], s.net_ref, s.heap.length⟩

/-- `self.net = self.min_net` (line 170, end of an annealing pass): `self.net`
now refers to the same object as `self.min_net`. -/
def store_end_pass (s : NetStore) : NetStore :=
  ⟨s.heap, s.min_net_ref, s.min_net_ref⟩

/-- A sequence of in-place flips of the live net. -/
def apply_flips (s : NetStore) (l : List (ℕ × ℕ)) : NetStore :=
  l.foldl (fun t p => store_flip t p.1 p.2) s

theorem view_min_net_apply_flips (l : List (ℕ × ℕ)) :
    ∀ (t : NetStore), t.net_ref ≠ t.min_net_ref →
      view_min_net (apply_flips t l) = view_min_net t := by
  induction l with
  | nil => intro t _; rfl
  | cons p r ih =>
    intro t ht
    show view_min_net (apply_flips (store_flip t p.1 p.2) r) = _
    rw [ih (store_flip t p.1 p.2) ht]
    exact getD_set_ne t.heap t.net_ref t.min_net_ref _ [] ht

/-! ## Claim C2 -/

/-- Claim C2 (as stated) is false: a best-found snapshot is taken by deepcopy
(line 168), but the end of the pass executes `self.net = self.min_net`
(line 170), after which the live grid aliases the snapshot — a subsequent
`flip` (the first proposal of a retry pass) alters the snapshot's cells.
(The initial `self.min_net = self.net` of `__init__`, line 84, aliases too.) -/
theorem c2_counterexample :
    view_min_net (store_flip (store_end_pass (store_snapshot (init_store [[true]]))) 0 0)
      ≠ view_min_net (store_end_pass (store_snapshot (init_store [[true]]))) := by
  decide

/-- Claim C2, amended: only between a deepcopy snapshot (line 168) and the next
re-aliasing does the snapshot not alias the live grid: immediately after
`store_snapshot` the snapshot holds the value of the live grid, and any
sequence of in-place flips of the live grid leaves the snapshot's cells
unchanged.  (At construction, and again after each pass's final
`self.net = self.min_net`, the two references alias and flips do alter
`min_net` — see the counterexample.) -/
theorem c2_amended (s : NetStore) (h : s.net_ref < s.heap.length) (l : List (ℕ × ℕ)) :
    view_min_net (store_snapshot s) = view_net s
    ∧ view_min_net (apply_flips (store_snapshot s) l) = view_net s := by
  have hv : view_min_net (store_snapshot s) = view_net s := by
    show (s.heap ++ [view_net s]).getD s.heap.length [] = view_net s
    rw [List.getD_eq_getElem?_getD, List.getElem?_concat_length]
    rfl
  refine ⟨hv, ?_⟩
  rw [view_min_net_apply_flips l (store_snapshot s) (by show s.net_ref ≠ s.heap.length; omega)]
  exact hv

/-- Concrete instantiation of `c2_amended`: after a snapshot of a 2×2 store,
flipping the live net twice leaves the snapshot unchanged. -/
theorem c2_witness :
    view_min_net (store_snapshot (init_store [[true, false], [false, true]]))
      = view_net (init_store [[true, false], [false, true]])
    ∧ view_min_net (apply_flips (store_snapshot (init_store [[true, false], [false, true]]))
        [(0, 0), (1, 1)])
      = view_net (init_store [[true, false], [false, true]]) :=
  c2_amended (init_store [[true, false], [false, true]]) (by decide) [(0, 0), (1, 1)]

/-! ## The distance table (`import_distances`)

The JSON distance data is a dict of dicts: each is modelled as an association
list (Python dict keys are unique; lookups return the first match).  City
labels form an arbitrary linearly ordered type; values are stored and copied
but never computed with during the import. -/

/-- A nested mapping city → city → distance. -/
abbrev DistTable (C α : Type) := List (C × List (C × α))

/-- Dict lookup (`d[k]`, `k in d`): the first entry with the given key. -/
def alookup {C α : Type} [DecidableEq C] (k : C) : List (C × α) → Option α
  | [] => none
  | p :: rest => if p.1 = k then some p.2 else alookup k rest

section Distances

variable {C : Type} [DecidableEq C] {α : Type}

/-- `self.distances[a][b]`, as a partial lookup. -/
def lookup2 (d : DistTable C α) (a b : C) : Option α :=
  match alookup a d with
  | some entry => alookup b entry
  | none => none

/-- The outer keys of the table (`self.distances.keys()`). -/
def keys (d : DistTable C α) : List C := d.map Prod.fst

/-- `self.distances[key][k2] = v` for a key `k2` not yet present in the inner
dict of `key` (dict insertion appends a new entry). -/
def add_entry (d : DistTable C α) (key k2 : C) (v : α) : DistTable C α :=
  d.map fun p => if p.1 = key then (p.1, p.2 ++ [(k2, v)]) else p

/-- The inner loop of `import_distances` for a fixed outer `city`:
`for city_entry, distance_entry in self.distances.items():` — if `city` is
missing from `distance_entry` and differs from `city_entry`, copy
`self.distances[city][city_entry]` into `self.distances[city_entry][city]`;
a `KeyError` on that read (pair absent in both directions) aborts (`none`). -/
def import_city_step [DecidableEq C] (city : C) :
    List C → DistTable C α → Option (DistTable C α)
  | [], d => some d
  | ce :: rest, d =>
    match alookup ce d with
    | none => none
    | some entry =>
      if city = ce then import_city_step city rest d
      else
        match alookup city entry with
        | some _ => import_city_step city rest d
        | none =>
          match lookup2 d city ce with
          | none => none
          | some v => import_city_step city rest (add_entry d ce city v)

/-- The outer loop of `import_distances`: `for city in self.cities:`, running
the inner loop over the (stable) outer keys of the current table. -/
def import_pass [DecidableEq C] : List C → DistTable C α → Option (DistTable C α)
  | [], d => some d
  | c :: rest, d =>
    match import_city_step c (keys d) d with
    | none => none
    | some d2 => import_pass rest d2

end Distances

/-- `self.cities = self.distances.keys(); self.cities.sort()`. -/
def sorted_cities {C α : Type} [LinearOrder C] (d : DistTable C α) : List C :=
  List.insertionSort (· ≤ ·) (keys d)

/-- `BoltzmannTsp.import_distances` (after the JSON load): complete the
possibly-partial table; `none` models the `KeyError` raised when some pair of
distinct cities is absent in both directions. -/
def import_distances {C α : Type} [LinearOrder C] [DecidableEq C]
    (d : DistTable C α) : Option (DistTable C α) :=
  import_pass (sorted_cities d) d

/-! ## Invariants of the import -/

section DistanceLemmas

variable {C : Type} [DecidableEq C] {α : Type}

theorem alookup_append (k : C) (l1 l2 : List (C × α)) :
    alookup k (l1 ++ l2) = match alookup k l1 with
      | some v => some v
      | none => alookup k l2 := by
  induction l1 with
  | nil => rfl
  | cons p rest ih =>
    have hd : alookup k (p :: rest) = if p.1 = k then some p.2 else alookup k rest := rfl
    have hd2 : alookup k ((p :: rest) ++ l2)
        = if p.1 = k then some p.2 else alookup k (rest ++ l2) := rfl
    rw [hd2, hd]
    by_cases hp : p.1 = k
    · rw [if_pos hp, if_pos hp]
    · rw [if_neg hp, if_neg hp, ih]

theorem keys_add_entry (d : DistTable C α) (key k2 : C) (v : α) :
    keys (add_entry d key k2 v) = keys d := by
  unfold keys add_entry
  rw [List.map_map]
  apply List.map_congr_left
  intro p _
  by_cases hp : p.1 = key
  · simp [hp]
  · simp [hp]

theorem alookup_add_entry_ne (d : DistTable C α) (key k2 x : C) (v : α) (hx : x ≠ key) :
    alookup x (add_entry d key k2 v) = alookup x d := by
  induction d with
  | nil => rfl
  | cons p rest ih =>
    show alookup x ((if p.1 = key then (p.1, p.2 ++ [(k2, v)]) else p) :: _) = _
    by_cases hp : p.1 = key
    · rw [if_pos hp]
      show (if p.1 = x then _ else _) = alookup x (p :: rest)
      have hpx : p.1 ≠ x := fun hh => hx (hh.symm.trans hp ▸ rfl)
      rw [if_neg hpx]
      show alookup x (add_entry rest key k2 v) = _
      rw [ih]
      show _ = if p.1 = x then some p.2 else alookup x rest
      rw [if_neg hpx]
    · rw [if_neg hp]
      show (if p.1 = x then some p.2 else alookup x (add_entry rest key k2 v)) = _
      by_cases hpx : p.1 = x
      · rw [if_pos hpx]
        show _ = if p.1 = x then some p.2 else _
        rw [if_pos hpx]
      · rw [if_neg hpx, ih]
        show _ = if p.1 = x then some p.2 else _
        rw [if_neg hpx]

theorem alookup_add_entry_self (d : DistTable C α) (key k2 : C) (v : α) :
    alookup key (add_entry d key k2 v)
      = (alookup key d).map (fun e => e ++ [(k2, v)]) := by
  induction d with
  | nil => rfl
  | cons p rest ih =>
    show alookup key ((if p.1 = key then (p.1, p.2 ++ [(k2, v)]) else p) :: _) = _
    by_cases hp : p.1 = key
    · rw [if_pos hp]
      show (if p.1 = key then some (p.2 ++ [(k2, v)]) else _) = _
      rw [if_pos hp]
      show _ = (if p.1 = key then some p.2 else alookup key rest).map _
      rw [if_pos hp]
      rfl
    · rw [if_neg hp]
      show (if p.1 = key then some p.2 else alookup key (add_entry rest key k2 v)) = _
      rw [if_neg hp, ih]
      show _ = (if p.1 = key then some p.2 else alookup key rest).map _
      rw [if_neg hp]

theorem lookup2_add_entry_ne (d : DistTable C α) (key k2 x y : C) (v : α) (hx : x ≠ key) :
    lookup2 (add_entry d key k2 v) x y = lookup2 d x y := by
  unfold lookup2
  rw [alookup_add_entry_ne d key k2 x v hx]

theorem lookup2_def (d : DistTable C α) (a b : C) :
    lookup2 d a b = match alookup a d with
      | some entry => alookup b entry
      | none => none := rfl

theorem lookup2_add_entry_preserve (d : DistTable C α) (key k2 x y : C) (v w : α)
    (h : lookup2 d x y = some w) : lookup2 (add_entry d key k2 v) x y = some w := by
  by_cases hx : x = key
  · subst hx
    cases he : alookup x d with
    | none =>
      rw [lookup2_def, he] at h
      exact absurd h (by simp)
    | some e =>
      rw [lookup2_def, he] at h
      have h2 : alookup y e = some w := h
      rw [lookup2_def, alookup_add_entry_self, he]
      show alookup y (e ++ [(k2, v)]) = some w
      rw [alookup_append, h2]
  · rw [lookup2_add_entry_ne d key k2 x y v hx]
    exact h

theorem lookup2_add_entry_new (d : DistTable C α) (key k2 : C) (v : α) (e : List (C × α))
    (he : alookup key d = some e) (hmiss : alookup k2 e = none) :
    lookup2 (add_entry d key k2 v) key k2 = some v := by
  unfold lookup2
  rw [alookup_add_entry_self, he]
  show alookup k2 (e ++ [(k2, v)]) = some v
  rw [alookup_append, hmiss]
  show (if k2 = k2 then some v else none) = some v
  rw [if_pos rfl]

theorem lookup2_add_entry_some (d : DistTable C α) (key k2 x y : C) (v w : α)
    (h : lookup2 (add_entry d key k2 v) x y = some w) :
    lookup2 d x y = some w ∨ y = k2 := by
  by_cases hx : x = key
  · subst hx
    rw [lookup2_def, alookup_add_entry_self] at h
    cases he : alookup x d with
    | none =>
      rw [he] at h
      exact absurd h (by simp)
    | some e =>
      rw [he] at h
      have h2 : alookup y (e ++ [(k2, v)]) = some w := h
      rw [alookup_append] at h2
      cases hy : alookup y e with
      | some w2 =>
        rw [hy] at h2
        refine Or.inl ?_
        rw [lookup2_def, he]
        show alookup y e = some w
        rw [hy]
        exact h2
      | none =>
        rw [hy] at h2
        have h3 : (if k2 = y then some v else none) = some w := h2
        by_cases hyk : k2 = y
        · exact Or.inr hyk.symm
        · rw [if_neg hyk] at h3
          exact absurd h3 (by simp)
  · rw [lookup2_add_entry_ne d key k2 x y v hx] at h
    exact Or.inl h

theorem import_city_step_preserve (city : C) (ces : List C) :
    ∀ (d d2 : DistTable C α) (x y : C) (w : α),
      import_city_step city ces d = some d2 →
      lookup2 d x y = some w → lookup2 d2 x y = some w := by
  induction ces with
  | nil =>
    intro d d2 x y w hstep h
    have hs : some d = some d2 := hstep
    injection hs with hs2
    rw [← hs2]
    exact h
  | cons ce rest ih =>
    intro d d2 x y w hstep h
    rw [import_city_step] at hstep
    cases hce : alookup ce d with
    | none => simp only [hce] at hstep; exact absurd hstep (by simp)
    | some entry =>
      simp only [hce] at hstep
      by_cases hcc : city = ce
      · rw [if_pos hcc] at hstep
        exact ih d d2 x y w hstep h
      · rw [if_neg hcc] at hstep
        cases hmem : alookup city entry with
        | some w2 =>
          simp only [hmem] at hstep
          exact ih d d2 x y w hstep h
        | none =>
          simp only [hmem] at hstep
          cases hl : lookup2 d city ce with
          | none => simp only [hl] at hstep; exact absurd hstep (by simp)
          | some v =>
            simp only [hl] at hstep
            exact ih (add_entry d ce city v) d2 x y w hstep
              (lookup2_add_entry_preserve d ce city x y v w h)

theorem import_city_step_keys (city : C) (ces : List C) :
    ∀ (d d2 : DistTable C α),
      import_city_step city ces d = some d2 → keys d2 = keys d := by
  induction ces with
  | nil =>
    intro d d2 hstep
    have hs : some d = some d2 := hstep
    injection hs with hs2
    rw [hs2]
  | cons ce rest ih =>
    intro d d2 hstep
    rw [import_city_step] at hstep
    cases hce : alookup ce d with
    | none => simp only [hce] at hstep; exact absurd hstep (by simp)
    | some entry =>
      simp only [hce] at hstep
      by_cases hcc : city = ce
      · rw [if_pos hcc] at hstep
        exact ih d d2 hstep
      · rw [if_neg hcc] at hstep
        cases hmem : alookup city entry with
        | some w2 =>
          simp only [hmem] at hstep
          exact ih d d2 hstep
        | none =>
          simp only [hmem] at hstep
          cases hl : lookup2 d city ce with
          | none => simp only [hl] at hstep; exact absurd hstep (by simp)
          | some v =>
            simp only [hl] at hstep
            rw [ih (add_entry d ce city v) d2 hstep]
            exact keys_add_entry d ce city v

theorem import_city_step_some (city : C) (ces : List C) :
    ∀ (d d2 : DistTable C α) (x y : C) (w : α),
      import_city_step city ces d = some d2 →
      lookup2 d2 x y = some w → (∃ w2, lookup2 d x y = some w2) ∨ y = city := by
  induction ces with
  | nil =>
    intro d d2 x y w hstep h
    have hs : some d = some d2 := hstep
    injection hs with hs2
    exact Or.inl ⟨w, hs2 ▸ h⟩
  | cons ce rest ih =>
    intro d d2 x y w hstep h
    rw [import_city_step] at hstep
    cases hce : alookup ce d with
    | none => simp only [hce] at hstep; exact absurd hstep (by simp)
    | some entry =>
      simp only [hce] at hstep
      by_cases hcc : city = ce
      · rw [if_pos hcc] at hstep
        exact ih d d2 x y w hstep h
      · rw [if_neg hcc] at hstep
        cases hmem : alookup city entry with
        | some w2 =>
          simp only [hmem] at hstep
          exact ih d d2 x y w hstep h
        | none =>
          simp only [hmem] at hstep
          cases hl : lookup2 d city ce with
          | none => simp only [hl] at hstep; exact absurd hstep (by simp)
          | some v =>
            simp only [hl] at hstep
            rcases ih (add_entry d ce city v) d2 x y w hstep h with h2 | h2
            · obtain ⟨w2, hw2⟩ := h2
              rcases lookup2_add_entry_some d ce city x y v w2 hw2 with h3 | h3
              · exact Or.inl ⟨w2, h3⟩
              · exact Or.inr h3
            · exact Or.inr h2

theorem import_city_step_absent (city t : C) (ces : List C) :
    ∀ (d : DistTable C α), city ≠ t → t ∈ ces →
      lookup2 d t city = none → lookup2 d city t = none →
      import_city_step city ces d = none := by
  induction ces with
  | nil =>
    intro d _ hmem _ _
    exact absurd hmem (List.not_mem_nil t)
  | cons ce rest ih =>
    intro d hne hmem h1 h2
    rw [import_city_step]
    cases hce : alookup ce d with
    | none => rfl
    | some entry =>
      simp only []
      by_cases hcc : city = ce
      · rw [if_pos hcc]
        have htr : t ∈ rest := by
          cases List.mem_cons.mp hmem with
          | inl hh => exact absurd (hcc.trans hh.symm) hne
          | inr hh => exact hh
        exact ih d hne htr h1 h2
      · rw [if_neg hcc]
        cases hmem2 : alookup city entry with
        | some w =>
          have hct : ce ≠ t := by
            intro hh
            subst hh
            rw [lookup2_def, hce] at h1
            have h1b : alookup city entry = none := h1
            rw [hmem2] at h1b
            exact absurd h1b (by simp)
          have htr : t ∈ rest := by
            cases List.mem_cons.mp hmem with
            | inl hh => exact absurd hh.symm hct
            | inr hh => exact hh
          exact ih d hne htr h1 h2
        | none =>
          by_cases hct : ce = t
          · subst hct
            rw [show lookup2 d city ce = none from h2]
          · have htr : t ∈ rest := by
              cases List.mem_cons.mp hmem with
              | inl hh => exact absurd hh.symm hct
              | inr hh => exact hh
            cases hl : lookup2 d city ce with
            | none => rfl
            | some v =>
              simp only []
              exact ih (add_entry d ce city v) hne htr
                (by rw [lookup2_add_entry_ne d ce city t city v (fun hh => hct hh.symm)]
                    exact h1)
                (by rw [lookup2_add_entry_ne d ce city city t v hcc]
                    exact h2)

theorem import_city_step_completes (city t : C) (ces : List C) :
    ∀ (d d2 : DistTable C α), t ∈ ces → t ≠ city →
      import_city_step city ces d = some d2 →
      ∃ w, lookup2 d2 t city = some w := by
  induction ces with
  | nil =>
    intro d d2 hmem _ _
    exact absurd hmem (List.not_mem_nil t)
  | cons ce rest ih =>
    intro d d2 hmem hne hstep
    rw [import_city_step] at hstep
    cases hce : alookup ce d with
    | none => simp only [hce] at hstep; exact absurd hstep (by simp)
    | some entry =>
      simp only [hce] at hstep
      by_cases hcc : city = ce
      · rw [if_pos hcc] at hstep
        have htr : t ∈ rest := by
          cases List.mem_cons.mp hmem with
          | inl hh => exact absurd (hh.trans hcc.symm) hne
          | inr hh => exact hh
        exact ih d d2 htr hne hstep
      · rw [if_neg hcc] at hstep
        cases hmem2 : alookup city entry with
        | some w =>
          simp only [hmem2] at hstep
          by_cases hct : t = ce
          · subst hct
            have hd : lookup2 d t city = some w := by
              rw [lookup2_def, hce]
              exact hmem2
            obtain hv := import_city_step_preserve city rest d d2 t city w hstep hd
            exact ⟨w, hv⟩
          · have htr : t ∈ rest := by
              cases List.mem_cons.mp hmem with
              | inl hh => exact absurd hh hct
              | inr hh => exact hh
            exact ih d d2 htr hne hstep
        | none =>
          simp only [hmem2] at hstep
          cases hl : lookup2 d city ce with
          | none => simp only [hl] at hstep; exact absurd hstep (by simp)
          | some v =>
            simp only [hl] at hstep
            by_cases hct : t = ce
            · subst hct
              have hd : lookup2 (add_entry d t city v) t city = some v :=
                lookup2_add_entry_new d t city v entry hce hmem2
              obtain hv := import_city_step_preserve city rest (add_entry d t city v)
                d2 t city v hstep hd
              exact ⟨v, hv⟩
            · have htr : t ∈ rest := by
                cases List.mem_cons.mp hmem with
                | inl hh => exact absurd hh hct
                | inr hh => exact hh
              exact ih (add_entry d ce city v) d2 htr hne hstep

theorem import_city_step_copies (a b : C) (ces : List C) :
    ∀ (d d2 : DistTable C α) (v : α), a ≠ b → b ∈ ces →
      lookup2 d a b = some v → lookup2 d b a = none →
      import_city_step a ces d = some d2 →
      lookup2 d2 b a = some v := by
  induction ces with
  | nil =>
    intro d d2 v _ hmem _ _ _
    exact absurd hmem (List.not_mem_nil b)
  | cons ce rest ih =>
    intro d d2 v hne hmem hgiven hnone hstep
    rw [import_city_step] at hstep
    cases hce : alookup ce d with
    | none => simp only [hce] at hstep; exact absurd hstep (by simp)
    | some entry =>
      simp only [hce] at hstep
      by_cases hcc : a = ce
      · rw [if_pos hcc] at hstep
        have hbr : b ∈ rest := by
          cases List.mem_cons.mp hmem with
          | inl hh => exact absurd (hcc.trans hh.symm) hne
          | inr hh => exact hh
        exact ih d d2 v hne hbr hgiven hnone hstep
      · rw [if_neg hcc] at hstep
        cases hmem2 : alookup a entry with
        | some w =>
          simp only [hmem2] at hstep
          have hcb : ce ≠ b := by
            intro hh
            subst hh
            rw [lookup2_def, hce] at hnone
            have hn2 : alookup a entry = none := hnone
            rw [hmem2] at hn2
            exact absurd hn2 (by simp)
          have hbr : b ∈ rest := by
            cases List.mem_cons.mp hmem with
            | inl hh => exact absurd hh.symm hcb
            | inr hh => exact hh
          exact ih d d2 v hne hbr hgiven hnone hstep
        | none =>
          simp only [hmem2] at hstep
          by_cases hcb : ce = b
          · subst hcb
            rw [show lookup2 d a ce = some v from hgiven] at hstep
            simp only [] at hstep
            have hd : lookup2 (add_entry d ce a v) ce a = some v :=
              lookup2_add_entry_new d ce a v entry hce hmem2
            exact import_city_step_preserve a rest (add_entry d ce a v) d2 ce a v hstep hd
          · have hbr : b ∈ rest := by
              cases List.mem_cons.mp hmem with
              | inl hh => exact absurd hh.symm hcb
              | inr hh => exact hh
            cases hl : lookup2 d a ce with
            | none => simp only [hl] at hstep; exact absurd hstep (by simp)
            | some v2 =>
              simp only [hl] at hstep
              exact ih (add_entry d ce a v2) d2 v hne hbr
                (lookup2_add_entry_preserve d ce a a b v2 v hgiven)
                (by rw [lookup2_add_entry_ne d ce a b a v2 (fun hh => hcb hh.symm)]
                    exact hnone)
                hstep

theorem import_pass_preserve (cs : List C) :
    ∀ (d d2 : DistTable C α) (x y : C) (w : α),
      import_pass cs d = some d2 →
      lookup2 d x y = some w → lookup2 d2 x y = some w := by
  induction cs with
  | nil =>
    intro d d2 x y w hp h
    have hs : some d = some d2 := hp
    injection hs with hs2
    rw [← hs2]
    exact h
  | cons c rest ih =>
    intro d d2 x y w hp h
    rw [import_pass] at hp
    cases hstep : import_city_step c (keys d) d with
    | none => simp only [hstep] at hp; exact absurd hp (by simp)
    | some d3 =>
      simp only [hstep] at hp
      exact ih d3 d2 x y w hp (import_city_step_preserve c (keys d) d d3 x y w hstep h)

theorem import_pass_keys (cs : List C) :
    ∀ (d d2 : DistTable C α),
      import_pass cs d = some d2 → keys d2 = keys d := by
  induction cs with
  | nil =>
    intro d d2 hp
    have hs : some d = some d2 := hp
    injection hs with hs2
    rw [hs2]
  | cons c rest ih =>
    intro d d2 hp
    rw [import_pass] at hp
    cases hstep : import_city_step c (keys d) d with
    | none => simp only [hstep] at hp; exact absurd hp (by simp)
    | some d3 =>
      simp only [hstep] at hp
      rw [ih d3 d2 hp]
      exact import_city_step_keys c (keys d) d d3 hstep

theorem import_pass_some (cs : List C) :
    ∀ (d d2 : DistTable C α) (x y : C) (w : α),
      import_pass cs d = some d2 →
      lookup2 d2 x y = some w → (∃ w2, lookup2 d x y = some w2) ∨ y ∈ cs := by
  induction cs with
  | nil =>
    intro d d2 x y w hp h
    have hs : some d = some d2 := hp
    injection hs with hs2
    exact Or.inl ⟨w, hs2 ▸ h⟩
  | cons c rest ih =>
    intro d d2 x y w hp h
    rw [import_pass] at hp
    cases hstep : import_city_step c (keys d) d with
    | none => simp only [hstep] at hp; exact absurd hp (by simp)
    | some d3 =>
      simp only [hstep] at hp
      rcases ih d3 d2 x y w hp h with h2 | h2
      · obtain ⟨w2, hw2⟩ := h2
        rcases import_city_step_some c (keys d) d d3 x y w2 hstep hw2 with h3 | h3
        · exact Or.inl h3
        · exact Or.inr (h3 ▸ List.mem_cons_self c rest)
      · exact Or.inr (List.mem_cons_of_mem c h2)

theorem import_pass_absent (cs : List C) :
    ∀ (d : DistTable C α) (a b : C), a ≠ b → a ∈ keys d → b ∈ keys d →
      (a ∈ cs ∨ b ∈ cs) →
      lookup2 d a b = none → lookup2 d b a = none →
      import_pass cs d = none := by
  induction cs with
  | nil =>
    intro d a b _ _ _ hcs _ _
    rcases hcs with h | h
    · exact absurd h (List.not_mem_nil a)
    · exact absurd h (List.not_mem_nil b)
  | cons c rest ih =>
    intro d a b hne ha hb hcs h1 h2
    rw [import_pass]
    by_cases hca : c = a
    · subst hca
      rw [import_city_step_absent c b (keys d) d hne hb h2 h1]
    · by_cases hcb : c = b
      · subst hcb
        rw [import_city_step_absent c a (keys d) d (fun hh => hne hh.symm) ha h1 h2]
      · cases hstep : import_city_step c (keys d) d with
        | none => rfl
        | some d3 =>
          simp only []
          have hk3 : keys d3 = keys d := import_city_step_keys c (keys d) d d3 hstep
          have h1b : lookup2 d3 a b = none := by
            cases hv : lookup2 d3 a b with
            | none => rfl
            | some w =>
              rcases import_city_step_some c (keys d) d d3 a b w hstep hv with h3 | h3
              · obtain ⟨w2, hw2⟩ := h3
                rw [h1] at hw2
                exact absurd hw2 (by simp)
              · exact absurd h3.symm hcb
          have h2b : lookup2 d3 b a = none := by
            cases hv : lookup2 d3 b a with
            | none => rfl
            | some w =>
              rcases import_city_step_some c (keys d) d d3 b a w hstep hv with h3 | h3
              · obtain ⟨w2, hw2⟩ := h3
                rw [h2] at hw2
                exact absurd hw2 (by simp)
              · exact absurd h3.symm hca
          have hcs2 : a ∈ rest ∨ b ∈ rest := by
            rcases hcs with h | h
            · exact Or.inl (by
                cases List.mem_cons.mp h with
                | inl hh => exact absurd hh.symm hca
                | inr hh => exact hh)
            · exact Or.inr (by
                cases List.mem_cons.mp h with
                | inl hh => exact absurd hh.symm hcb
                | inr hh => exact hh)
          exact ih d3 a b hne (hk3 ▸ ha) (hk3 ▸ hb) hcs2 h1b h2b

theorem import_pass_copies (cs : List C) :
    ∀ (d d2 : DistTable C α) (a b : C) (v : α), a ≠ b → a ∈ cs → b ∈ keys d →
      lookup2 d a b = some v → lookup2 d b a = none →
      import_pass cs d = some d2 →
      lookup2 d2 b a = some v := by
  induction cs with
  | nil =>
    intro d d2 a b v _ hmem _ _ _ _
    exact absurd hmem (List.not_mem_nil a)
  | cons c rest ih =>
    intro d d2 a b v hne hmem hb hgiven hnone hp
    rw [import_pass] at hp
    cases hstep : import_city_step c (keys d) d with
    | none => simp only [hstep] at hp; exact absurd hp (by simp)
    | some d3 =>
      simp only [hstep] at hp
      by_cases hca : c = a
      · subst hca
        have hd3 : lookup2 d3 b c = some v :=
          import_city_step_copies c b (keys d) d d3 v hne hb hgiven hnone hstep
        exact import_pass_preserve rest d3 d2 b c v hp hd3
      · have hmem2 : a ∈ rest := by
          cases List.mem_cons.mp hmem with
          | inl hh => exact absurd hh.symm hca
          | inr hh => exact hh
        have hgiven3 : lookup2 d3 a b = some v :=
          import_city_step_preserve c (keys d) d d3 a b v hstep hgiven
        have hnone3 : lookup2 d3 b a = none := by
          cases hv : lookup2 d3 b a with
          | none => rfl
          | some w =>
            rcases import_city_step_some c (keys d) d d3 b a w hstep hv with h3 | h3
            · obtain ⟨w2, hw2⟩ := h3
              rw [hnone] at hw2
              exact absurd hw2 (by simp)
            · exact absurd h3.symm hca
        have hb3 : b ∈ keys d3 := by
          rw [import_city_step_keys c (keys d) d d3 hstep]
          exact hb
        exact ih d3 d2 a b v hne hmem2 hb3 hgiven3 hnone3 hp

theorem import_pass_completes (cs : List C) :
    ∀ (d d2 : DistTable C α) (c t : C), c ∈ cs → t ∈ keys d → t ≠ c →
      import_pass cs d = some d2 →
      ∃ w, lookup2 d2 t c = some w := by
  induction cs with
  | nil =>
    intro d d2 c t hmem _ _ _
    exact absurd hmem (List.not_mem_nil c)
  | cons c0 rest ih =>
    intro d d2 c t hmem ht hne hp
    rw [import_pass] at hp
    cases hstep : import_city_step c0 (keys d) d with
    | none => simp only [hstep] at hp; exact absurd hp (by simp)
    | some d3 =>
      simp only [hstep] at hp
      by_cases hcc : c0 = c
      · subst hcc
        obtain ⟨w, hw⟩ := import_city_step_completes c0 t (keys d) d d3 ht hne hstep
        exact ⟨w, import_pass_preserve rest d3 d2 t c0 w hp hw⟩
      · have hmem2 : c ∈ rest := by
          cases List.mem_cons.mp hmem with
          | inl hh => exact absurd hh.symm hcc
          | inr hh => exact hh
        have ht3 : t ∈ keys d3 := by
          rw [import_city_step_keys c0 (keys d) d d3 hstep]
          exact ht
        exact ih d3 d2 c t hmem2 ht3 hne hp

end DistanceLemmas

/-! ## Claims C3 and C7 -/

/-- Claim C3 (as stated) is false: with two cities and no distance in either
direction, building the table does not succeed — the completion loop itself
hits the missing pair (`self.distances[city][city_entry]` raises `KeyError`
at line 100) and construction aborts. -/
theorem c3_counterexample :
    import_distances ([(0, []), (1, [])] : DistTable ℕ ℤ) = none := by
  decide

/-- Claim C3, amended: for every input whose distance mapping omits some pair
of distinct cities in both directions, `import_distances` itself fails with
the lookup error (`KeyError` on `self.distances[city][city_entry]`, line 100)
while completing the table; construction never completes, so the error is
raised during construction, not deferred to the first adjacent-epoch weight
lookup of a run. -/
theorem c3_amended (C : Type) [LinearOrder C] [DecidableEq C] (α : Type)
    (d : DistTable C α) (a b : C) (hne : a ≠ b)
    (ha : a ∈ keys d) (hb : b ∈ keys d)
    (h1 : lookup2 d a b = none) (h2 : lookup2 d b a = none) :
    import_distances d = none := by
  unfold import_distances
  apply import_pass_absent (sorted_cities d) d a b hne ha hb _ h1 h2
  exact Or.inl (((List.perm_insertionSort (· ≤ ·) (keys d)).mem_iff).mpr ha)

/-- Concrete instantiation of `c3_amended`: two cities `5`, `7` with an empty
distance mapping — construction fails. -/
theorem c3_witness :
    import_distances ([(5, []), (7, [])] : DistTable ℕ ℤ) = none :=
  c3_amended ℕ ℤ [(5, []), (7, [])] 5 7 (by decide) (by decide) (by decide)
    (by decide) (by decide)

/-- Claim C7 (as stated) is false: when both directions of a pair are given in
the input with different values, the completion loop leaves both untouched
(it only fills entries that are absent), so the built table is asymmetric:
`dist[0][1] = 1` but `dist[1][0] = 2`. -/
theorem c7_counterexample :
    import_distances ([(0, [(1, 1)]), (1, [(0, 2)])] : DistTable ℕ ℤ)
      = some [(0, [(1, 1)]), (1, [(0, 2)])]
    ∧ lookup2 ([(0, [(1, 1)]), (1, [(0, 2)])] : DistTable ℕ ℤ) 0 1
      ≠ lookup2 ([(0, [(1, 1)]), (1, [(0, 2)])] : DistTable ℕ ℤ) 1 0 := by
  decide

/-- Claim C7, amended: input values are never overwritten — any present entry
keeps its input value after the build — and for a pair given in exactly one
direction the missing direction is filled with the given value, so such a pair
is symmetric after the build.  (A pair given in both directions keeps both
input values, and is symmetric only if the input was.) -/
theorem c7_amended (C : Type) [LinearOrder C] [DecidableEq C] (α : Type)
    (d d2 : DistTable C α) (a b : C) (v : α) (hne : a ≠ b)
    (ha : a ∈ keys d) (hb : b ∈ keys d)
    (hgiven : lookup2 d a b = some v) (him : import_distances d = some d2) :
    lookup2 d2 a b = some v ∧ (lookup2 d b a = none → lookup2 d2 b a = some v) := by
  constructor
  · exact import_pass_preserve (sorted_cities d) d d2 a b v him hgiven
  · intro hnone
    exact import_pass_copies (sorted_cities d) d d2 a b v hne
      (((List.perm_insertionSort (· ≤ ·) (keys d)).mem_iff).mpr ha) hb hgiven hnone him

/-- Concrete instantiation of `c7_amended`: `dist[0][1] = 3` given, the other
direction absent; the build completes the pair symmetrically. -/
theorem c7_witness :
    lookup2 ([(0, [(1, 3)]), (1, [(0, 3)])] : DistTable ℕ ℤ) 0 1 = some 3
    ∧ (lookup2 ([(0, [(1, 3)]), (1, [])] : DistTable ℕ ℤ) 1 0 = none →
        lookup2 ([(0, [(1, 3)]), (1, [(0, 3)])] : DistTable ℕ ℤ) 1 0 = some 3) :=
  c7_amended ℕ ℤ [(0, [(1, 3)]), (1, [])] [(0, [(1, 3)]), (1, [(0, 3)])] 0 1 3
    (by decide) (by decide) (by decide) (by decide) (by decide)

/-! ## Path validity and extraction -/

/-- Python's `list.index(True)`: the index of the first true element; a
`ValueError` (here `none`) if the row has no true cell. -/
def index_true : List Bool → Option ℕ
  | [] => none
  | b :: rest => if b then some 0 else (index_true rest).map (· + 1)

/-- Lookup in a dict built by successive insertion (`{value: key for ...}`):
the last insertion for a key wins. -/
def lookup_last {β : Type} (l : List (ℕ × β)) (k : ℕ) : Option β :=
  alookup k l.reverse

/-- `BoltzmannTsp.is_valid_path`: the total number of enabled cells of
`self.net` equals the number of cities, and every row of `self.min_net`
contains a true cell.  (The code really does mix the two nets.) -/
def is_valid_path (n : ℕ) (net min_net : Grid) : Bool :=
  (num_enabled net n == n) && min_net.all fun row => row.contains true

/-- `BoltzmannTsp.determine_path`: for each row take the first true column
(`city.index(True)`; `ValueError` if absent), invert the city → epoch dict
(last insertion wins), read off the city of each epoch `0 .. n-1`
(`KeyError`, i.e. `none`, if an epoch is missing), and close the tour by
appending the first city (`IndexError` on an empty path). -/
def determine_path {C : Type} [DecidableEq C] (n : ℕ) (city_map : ℕ → C)
    (g : Grid) : Option (List C) :=
  match g.mapM index_true with
  | none => none
  | some epochs =>
    let epoch_city := epochs.enum.map fun p => (p.2, city_map p.1)
    match (List.range n).mapM (fun e => lookup_last epoch_city e) with
    | none => none
    | some path =>
      match path with
      | [] => none
      | p0 :: _ => some (path ++ [p0])

/-! ## Option-valued traversal lemmas -/

section OptionLemmas

variable {β γ : Type}

theorem option_mapM_nil (f : β → Option γ) : ([] : List β).mapM f = some [] := rfl

theorem option_mapM_cons (f : β → Option γ) (a : β) (l : List β) :
    (a :: l).mapM f = (f a).bind fun b => (l.mapM f).bind fun bs => some (b :: bs) := by
  rw [List.mapM_cons]
  cases f a with
  | none => rfl
  | some b =>
    cases l.mapM f with
    | none => rfl
    | some bs => rfl

theorem option_mapM_none (f : β → Option γ) (l : List β) (x : β)
    (hx : x ∈ l) (hfx : f x = none) : l.mapM f = none := by
  induction l with
  | nil => exact absurd hx (List.not_mem_nil x)
  | cons a rest ih =>
    rw [option_mapM_cons]
    cases List.mem_cons.mp hx with
    | inl hh =>
      have hfa : f a = none := hh ▸ hfx
      rw [hfa]
      rfl
    | inr hh =>
      cases hfa : f a with
      | none => rfl
      | some b =>
        rw [ih hh]
        rfl

theorem option_mapM_map (f : β → Option γ) (gf : β → γ) (l : List β)
    (h : ∀ x ∈ l, f x = some (gf x)) : l.mapM f = some (l.map gf) := by
  induction l with
  | nil => rfl
  | cons a rest ih =>
    rw [option_mapM_cons, h a (List.mem_cons_self a rest),
      ih fun x hx => h x (List.mem_cons_of_mem a hx)]
    rfl

theorem option_mapM_isSome (f : β → Option γ) (l : List β)
    (h : ∀ x ∈ l, (f x).isSome) : (l.mapM f).isSome := by
  induction l with
  | nil => rfl
  | cons a rest ih =>
    rw [option_mapM_cons]
    cases hfa : f a with
    | none =>
      have := h a (List.mem_cons_self a rest)
      rw [hfa] at this
      exact absurd this (by simp)
    | some b =>
      have h2 := ih fun x hx => h x (List.mem_cons_of_mem a hx)
      cases hrest : rest.mapM f with
      | none => rw [hrest] at h2; exact absurd h2 (by simp)
      | some bs => rfl

theorem option_mapM_getD (f : β → Option γ) (db : β) (dg : γ) :
    ∀ (l : List β) (l2 : List γ), l.mapM f = some l2 →
      l2.length = l.length ∧ ∀ i < l.length, f (l.getD i db) = some (l2.getD i dg) := by
  intro l
  induction l with
  | nil =>
    intro l2 h
    have hs : some [] = some l2 := h
    injection hs with hs2
    rw [← hs2]
    exact ⟨rfl, fun i hi => absurd hi (by simp)⟩
  | cons a rest ih =>
    intro l2 h
    rw [option_mapM_cons] at h
    cases hfa : f a with
    | none => rw [hfa] at h; exact absurd h (by simp)
    | some b =>
      rw [hfa] at h
      cases hrest : rest.mapM f with
      | none => rw [hrest] at h; exact absurd h (by simp)
      | some bs =>
        rw [hrest] at h
        have hs : some (b :: bs) = some l2 := h
        injection hs with hs2
        rw [← hs2]
        obtain ⟨hlen, hget⟩ := ih bs hrest
        refine ⟨by simp [hlen], fun i hi => ?_⟩
        cases i with
        | zero => exact hfa
        | succ i2 =>
          have hi2 : i2 < rest.length := by
            have : rest.length = (a :: rest).length - 1 := rfl
            omega
          exact hget i2 hi2

end OptionLemmas

/-! ## First-true-index lemmas -/

theorem index_true_eq_none (r : List Bool) (h : ∀ b ∈ r, b = false) :
    index_true r = none := by
  induction r with
  | nil => rfl
  | cons b rest ih =>
    rw [index_true]
    rw [h b (List.mem_cons_self b rest)]
    rw [if_neg (by simp)]
    rw [ih fun x hx => h x (List.mem_cons_of_mem b hx)]
    rfl

theorem index_true_isSome (r : List Bool) (h : true ∈ r) : (index_true r).isSome := by
  induction r with
  | nil => exact absurd h (List.not_mem_nil true)
  | cons b rest ih =>
    rw [index_true]
    by_cases hb : b
    · rw [if_pos hb]; rfl
    · rw [if_neg hb]
      have hrest : true ∈ rest := by
        cases List.mem_cons.mp h with
        | inl hh => exact absurd hh.symm hb
        | inr hh => exact hh
      cases hidx : index_true rest with
      | none => rw [hidx] at ih; exact absurd (ih hrest) (by simp)
      | some k => rfl

theorem index_true_spec (r : List Bool) :
    ∀ (k : ℕ), index_true r = some k → k < r.length ∧ r.getD k false = true := by
  induction r with
  | nil => intro k h; exact absurd h (by simp [index_true])
  | cons b rest ih =>
    intro k h
    rw [index_true] at h
    by_cases hb : b
    · rw [if_pos hb] at h
      injection h with h2
      rw [← h2]
      exact ⟨by simp, hb⟩
    · rw [if_neg hb] at h
      cases hidx : index_true rest with
      | none => rw [hidx] at h; exact absurd h (by simp)
      | some k2 =>
        rw [hidx] at h
        have h2 : some (k2 + 1) = some k := h
        injection h2 with h3
        obtain ⟨hlt, hval⟩ := ih k2 hidx
        rw [← h3]
        exact ⟨by simp; omega, hval⟩

theorem alookup_ne_none {β : Type} (k : ℕ) (l : List (ℕ × β))
    (h : ∀ p ∈ l, p.1 ≠ k) : alookup k l = none := by
  induction l with
  | nil => rfl
  | cons p rest ih =>
    rw [alookup]
    rw [if_neg (h p (List.mem_cons_self p rest))]
    exact ih fun q hq => h q (List.mem_cons_of_mem p hq)

/-! ## Claim C10 -/

/-- Claim C10: if some row of the net contains no true cell, `determine_path`
fails at that row's `city.index(True)` (a `ValueError`) and never returns a
path. -/
theorem c10_no_true_row (C : Type) [DecidableEq C] (n : ℕ) (city_map : ℕ → C)
    (g : Grid) (r : List Bool) (hr : r ∈ g) (hfalse : ∀ b ∈ r, b = false) :
    determine_path n city_map g = none := by
  unfold determine_path
  rw [option_mapM_none index_true g r hr (index_true_eq_none r hfalse)]

/-- Concrete instantiation of `c10_no_true_row`: the first row is all false. -/
theorem c10_witness :
    determine_path 2 (fun i => i) [[false, false], [true, false]] = none :=
  c10_no_true_row ℕ 2 (fun i => i) [[false, false], [true, false]] [false, false]
    (by decide) (by decide)

/-! ## Claim C6 -/

/-- Claim C6 (as stated) is false: on the grid `[[T,F],[T,F]]` (both rows have a
true cell, both map to epoch 0), `determine_path` does not complete — the
inverted dict covers only epoch 0, and reading epoch 1 raises a `KeyError`. -/
theorem c6_counterexample :
    determine_path 2 (fun i => i) [[true, false], [true, false]] = none := by
  decide

/-- Claim C6, amended: when every row has a true cell but two rows share the
same first-true epoch, the inverted epoch → city dict does silently drop one of
the two cities, but the subsequent path comprehension then hits an epoch in
`0 .. n-1` with no city assigned (pigeonhole) and raises a `KeyError`:
`determine_path` fails rather than returning a path with a city dropped. -/
theorem c6_duplicate_epoch (C : Type) [DecidableEq C] (n : ℕ) (city_map : ℕ → C)
    (g : Grid) (hg : g.length = n) (hrows : ∀ r ∈ g, r.length = n)
    (hall : ∀ r ∈ g, true ∈ r) (i i' : ℕ) (hi : i < n) (hi' : i' < n) (hne : i ≠ i')
    (hdup : index_true (g.getD i []) = index_true (g.getD i' [])) :
    determine_path n city_map g = none := by
  have hsome : (g.mapM index_true).isSome :=
    option_mapM_isSome index_true g fun r hr => index_true_isSome r (hall r hr)
  cases hmm : g.mapM index_true with
  | none => rw [hmm] at hsome; exact absurd hsome (by simp)
  | some epochs =>
    obtain ⟨hlen, hget⟩ := option_mapM_getD index_true [] 0 g epochs hmm
    have hlen2 : epochs.length = n := by rw [hlen, hg]
    have hep : ∀ idx < n, index_true (g.getD idx []) = some (epochs.getD idx 0) := by
      intro idx hidx
      exact hget idx (by rw [hg]; exact hidx)
    have hmemg : ∀ idx < n, g.getD idx [] ∈ g := by
      intro idx hidx
      have hidx2 : idx < g.length := by rw [hg]; exact hidx
      rw [List.getD_eq_getElem g [] hidx2]
      exact List.getElem_mem hidx2
    have hbound : ∀ x ∈ epochs, x < n := by
      intro x hx
      obtain ⟨idx, hidx, hxg⟩ := List.mem_iff_getElem.mp hx
      have hidx2 : idx < n := by rw [← hlen2]; exact hidx
      have := hep idx hidx2
      rw [List.getD_eq_getElem epochs 0 hidx, hxg] at this
      obtain ⟨hlt, _⟩ := index_true_spec (g.getD idx []) x this
      have : (g.getD idx []).length = n := hrows _ (hmemg idx hidx2)
      omega
    have hdup2 : epochs.getD i 0 = epochs.getD i' 0 := by
      have h1 := hep i hi
      have h2 := hep i' hi'
      rw [h1, h2] at hdup
      injection hdup
    have hnotnodup : ¬epochs.Nodup := by
      intro hnd
      have hgi : i < epochs.length := by omega
      have hgi' : i' < epochs.length := by omega
      rw [List.getD_eq_getElem epochs 0 hgi, List.getD_eq_getElem epochs 0 hgi'] at hdup2
      exact hne (List.Nodup.getElem_inj_iff hnd |>.mp hdup2)
    have hcard : epochs.toFinset.card < n := by
      rw [List.card_toFinset]
      have hsub := List.dedup_sublist epochs
      have hle : epochs.dedup.length ≤ epochs.length := hsub.length_le
      rcases lt_or_eq_of_le hle with h | h
      · omega
      · exact absurd (hsub.eq_of_length h ▸ epochs.nodup_dedup) hnotnodup
    have hnotsub : ¬(Finset.range n ⊆ epochs.toFinset) := by
      intro hsub
      have := Finset.card_le_card hsub
      rw [Finset.card_range] at this
      omega
    obtain ⟨e, he, henot⟩ := Finset.not_subset.mp hnotsub
    have hen : e < n := Finset.mem_range.mp he
    have hemem : e ∉ epochs := fun hh => henot (List.mem_toFinset.mpr hh)
    unfold determine_path
    rw [hmm]
    simp only []
    rw [option_mapM_none (fun e2 => lookup_last (epochs.enum.map
        fun p => (p.2, city_map p.1)) e2) (List.range n) e (List.mem_range.mpr hen) ?_]
    apply alookup_ne_none
    intro p hp
    rw [List.mem_reverse] at hp
    obtain ⟨q, hq, hpq⟩ := List.mem_map.mp hp
    intro hcontra
    apply hemem
    rw [← hcontra, ← hpq]
    show q.2 ∈ epochs
    rw [List.enum_eq_zip_range] at hq
    exact (List.of_mem_zip hq).2

/-- Concrete instantiation of `c6_duplicate_epoch`: both rows of
`[[F,T],[F,T]]` have first-true epoch 1, and extraction fails. -/
theorem c6_witness :
    determine_path 2 (fun i => i) [[false, true], [false, true]] = none :=
  c6_duplicate_epoch ℕ 2 (fun i => i) [[false, true], [false, true]]
    (by decide) (by decide) (by decide) 0 1 (by decide) (by decide) (by decide)
    (by decide)

/-! ## Permutation-grid lemmas for claim C4 -/

theorem countP_one_unique (l : List ℕ) (p : ℕ → Bool) (h : l.countP p = 1) :
    ∀ i ∈ l, ∀ i2 ∈ l, p i → p i2 → i = i2 := by
  intro i hi i2 hi2 hpi hpi2
  by_contra hne
  have hsub : ({i, i2} : Finset ℕ) ⊆ (l.filter p).toFinset := by
    intro x hx
    rw [List.mem_toFinset, List.mem_filter]
    rcases Finset.mem_insert.mp hx with h2 | h2
    · exact h2 ▸ ⟨hi, hpi⟩
    · exact (Finset.mem_singleton.mp h2) ▸ ⟨hi2, hpi2⟩
  have h2 : 2 ≤ (l.filter p).toFinset.card := by
    rw [← Finset.card_pair hne]
    exact Finset.card_le_card hsub
  have h3 : (l.filter p).toFinset.card ≤ (l.filter p).length := List.toFinset_card_le _
  rw [← List.countP_eq_length_filter, h] at h3
  omega

theorem countP_range_getD (r : List Bool) :
    (List.range r.length).countP (fun j => r.getD j false) = r.countP (fun b => b) := by
  induction r with
  | nil => rfl
  | cons b rest ih =>
    show (List.range (rest.length + 1)).countP _ = _
    rw [List.range_succ_eq_map, List.countP_cons, List.countP_map]
    have hcomp : ((fun j => (b :: rest).getD j false) ∘ Nat.succ)
        = fun j => rest.getD j false := rfl
    rw [hcomp, ih, List.countP_cons]
    rfl

theorem list_sum_map_one (l : List ℕ) (f : ℕ → ℕ) (h : ∀ x ∈ l, f x = 1) :
    (l.map f).sum = l.length := by
  induction l with
  | nil => rfl
  | cons a rest ih =>
    show f a + (rest.map f).sum = rest.length + 1
    rw [h a (List.mem_cons_self a rest), ih fun x hx => h x (List.mem_cons_of_mem a hx)]
    omega

theorem num_enabled_eq_sum (g : Grid) (n : ℕ) :
    num_enabled g n
      = ((List.range n).map fun i => (List.range n).countP fun j => getCell g i j).sum := by
  unfold num_enabled cellList square_iter
  rw [Nat.sub_zero, ← List.range_eq_range', List.filter_flatMap, List.length_flatMap]
  congr 1
  apply List.map_congr_left
  intro i _
  show (List.filter (fun c => c.2.2)
      (List.map (fun j => (i, j, getCell g i j)) (List.range n))).length = _
  rw [← List.countP_eq_length_filter, List.countP_map]
  rfl

theorem alookup_unique {β : Type} (l : List (ℕ × β)) (k : ℕ) (v : β)
    (hmem : (k, v) ∈ l) (huniq : ∀ p ∈ l, p.1 = k → p.2 = v) :
    alookup k l = some v := by
  induction l with
  | nil => exact absurd hmem (List.not_mem_nil (k, v))
  | cons p rest ih =>
    rw [alookup]
    by_cases hp : p.1 = k
    · rw [if_pos hp, huniq p (List.mem_cons_self p rest) hp]
    · rw [if_neg hp]
      have hmem2 : (k, v) ∈ rest := by
        cases List.mem_cons.mp hmem with
        | inl hh => exact absurd (by rw [← hh]) hp
        | inr hh => exact hh
      exact ih hmem2 fun q hq => huniq q (List.mem_cons_of_mem p hq)

theorem lookup_last_unique {β : Type} (l : List (ℕ × β)) (k : ℕ) (v : β)
    (hmem : (k, v) ∈ l) (huniq : ∀ p ∈ l, p.1 = k → p.2 = v) :
    lookup_last l k = some v := by
  unfold lookup_last
  exact alookup_unique l.reverse k v (List.mem_reverse.mpr hmem)
    fun q hq => huniq q (List.mem_reverse.mp hq)

/-! ## Claim C4 -/

/-- Claim C4: for a grid that is a true permutation matrix (exactly one true
cell per row and per column over `n >= 1` distinctly-labelled cities),
`is_valid_path` returns true (both on the live net and the row check on
`min_net`, here the same grid), and `determine_path` returns a closed tour of
length `n + 1` that contains every city exactly once among its first `n`
entries and repeats the first city at the end. -/
theorem c4_round_trip (C : Type) [DecidableEq C] (n : ℕ) (city_map : ℕ → C) (g : Grid)
    (hn : 0 < n) (hg : g.length = n) (hrows : ∀ r ∈ g, r.length = n)
    (hrow1 : ∀ i < n, (g.getD i []).countP (fun b => b) = 1)
    (hcol1 : ∀ j < n, ((List.range n).countP fun i => getCell g i j) = 1)
    (hinj : ∀ i < n, ∀ i2 < n, city_map i = city_map i2 → i = i2) :
    is_valid_path n g g = true
    ∧ ∃ path, determine_path n city_map g = some path
      ∧ path.length = n + 1
      ∧ path.getD 0 (city_map 0) = path.getD n (city_map 0)
      ∧ ∀ i < n, (path.take n).count (city_map i) = 1 := by
  have hmemg : ∀ idx < n, g.getD idx [] ∈ g := by
    intro idx hidx
    have hidx2 : idx < g.length := by rw [hg]; exact hidx
    rw [List.getD_eq_getElem g [] hidx2]
    exact List.getElem_mem hidx2
  have hrowlen : ∀ idx < n, (g.getD idx []).length = n := fun idx hidx =>
    hrows _ (hmemg idx hidx)
  have hrowmem1 : ∀ r ∈ g, r.countP (fun b => b) = 1 := by
    intro r hr
    obtain ⟨idx, hidx, hidxr⟩ := List.mem_iff_getElem.mp hr
    have hidx2 : idx < n := by rw [← hg]; exact hidx
    have := hrow1 idx hidx2
    rw [List.getD_eq_getElem g [] hidx, hidxr] at this
    exact this
  have htrue_mem : ∀ r ∈ g, true ∈ r := by
    intro r hr
    have hpos : 0 < r.countP (fun b => b) := by rw [hrowmem1 r hr]; omega
    obtain ⟨b, hb, hbp⟩ := List.countP_pos_iff.mp hpos
    have : b = true := hbp
    exact this ▸ hb
  have hvalid : is_valid_path n g g = true := by
    unfold is_valid_path
    have hsum : num_enabled g n = n := by
      rw [num_enabled_eq_sum]
      have := list_sum_map_one (List.range n)
        (fun i => (List.range n).countP fun j => getCell g i j) ?_
      · rw [this, List.length_range]
      · intro i hi
        have hi2 : i < n := List.mem_range.mp hi
        have hlen : (g.getD i []).length = n := hrowlen i hi2
        have hcp := countP_range_getD (g.getD i [])
        rw [hlen] at hcp
        show List.countP (fun j => getCell g i j) (List.range n) = 1
        have heq : List.countP (fun j => getCell g i j) (List.range n)
            = List.countP (fun j => (g.getD i []).getD j false) (List.range n) := rfl
        rw [heq, hcp]
        exact hrow1 i hi2
    rw [hsum]
    have hb : (n == n) = true := by simp
    rw [hb]
    have hall : g.all (fun row => row.contains true) = true := by
      rw [List.all_eq_true]
      intro r hr
      have : List.elem true r = true := List.elem_iff.mpr (htrue_mem r hr)
      exact this
    rw [hall]
    rfl
  have hsome : (g.mapM index_true).isSome :=
    option_mapM_isSome index_true g fun r hr => index_true_isSome r (htrue_mem r hr)
  cases hmm : g.mapM index_true with
  | none => rw [hmm] at hsome; exact absurd hsome (by simp)
  | some epochs =>
    obtain ⟨hlen, hget⟩ := option_mapM_getD index_true [] 0 g epochs hmm
    have hlen2 : epochs.length = n := by rw [hlen, hg]
    have hep : ∀ idx < n, index_true (g.getD idx []) = some (epochs.getD idx 0) :=
      fun idx hidx => hget idx (by rw [hg]; exact hidx)
    have hcell : ∀ idx < n, epochs.getD idx 0 < n ∧ getCell g idx (epochs.getD idx 0) = true := by
      intro idx hidx
      obtain ⟨hlt, hval⟩ := index_true_spec (g.getD idx []) (epochs.getD idx 0) (hep idx hidx)
      rw [hrowlen idx hidx] at hlt
      exact ⟨hlt, hval⟩
    have hinj_ep : ∀ a < n, ∀ b < n, epochs.getD a 0 = epochs.getD b 0 → a = b := by
      intro a ha b hb heq
      have hpa : getCell g a (epochs.getD a 0) = true := (hcell a ha).2
      have hpb : getCell g b (epochs.getD a 0) = true := by
        rw [heq]; exact (hcell b hb).2
      exact countP_one_unique (List.range n) (fun i => getCell g i (epochs.getD a 0))
        (hcol1 _ (hcell a ha).1) a (List.mem_range.mpr ha) b (List.mem_range.mpr hb)
        hpa hpb
    have himg : Finset.image (fun idx => epochs.getD idx 0) (Finset.range n)
        = Finset.range n := by
      apply Finset.eq_of_subset_of_card_le
      · intro x hx
        obtain ⟨a, ha, hax⟩ := Finset.mem_image.mp hx
        rw [Finset.mem_range]
        rw [← hax]
        exact (hcell a (Finset.mem_range.mp ha)).1
      · have hinjOn : Set.InjOn (fun idx => epochs.getD idx 0)
            ((Finset.range n : Finset ℕ) : Set ℕ) := by
          intro a ha b hb heq
          exact hinj_ep a (Finset.mem_range.mp (Finset.mem_coe.mp ha)) b
            (Finset.mem_range.mp (Finset.mem_coe.mp hb)) heq
        rw [Finset.card_image_of_injOn hinjOn]
    have hsurj : ∀ e < n, ∃ idx, idx < n ∧ epochs.getD idx 0 = e := by
      intro e he
      have : e ∈ Finset.image (fun idx => epochs.getD idx 0) (Finset.range n) := by
        rw [himg]; exact Finset.mem_range.mpr he
      obtain ⟨a, ha, hax⟩ := Finset.mem_image.mp this
      exact ⟨a, Finset.mem_range.mp ha, hax⟩
    classical
    let pinv : ℕ → ℕ := fun e =>
      if he2 : ∃ idx, idx < n ∧ epochs.getD idx 0 = e then he2.choose else 0
    have hpinv : ∀ e < n, pinv e < n ∧ epochs.getD (pinv e) 0 = e := by
      intro e he
      have he2 : ∃ idx, idx < n ∧ epochs.getD idx 0 = e := hsurj e he
      have hpe : pinv e = he2.choose := dif_pos he2
      rw [hpe]
      exact he2.choose_spec
    have hlook : ∀ e ∈ List.range n,
        lookup_last (epochs.enum.map fun p => (p.2, city_map p.1)) e
          = some (city_map (pinv e)) := by
      intro e hel
      have he : e < n := List.mem_range.mp hel
      apply lookup_last_unique
      · apply List.mem_map.mpr
        refine ⟨(pinv e, e), ?_, rfl⟩
        apply List.mem_enum_iff_getElem?.mpr
        show epochs[pinv e]? = some e
        have hpe : pinv e < epochs.length := by rw [hlen2]; exact (hpinv e he).1
        rw [List.getElem?_eq_getElem hpe, ← List.getD_eq_getElem epochs 0 hpe,
          (hpinv e he).2]
      · intro p hp hpk
        obtain ⟨q, hq, hpq⟩ := List.mem_map.mp hp
        have hq2 := List.mem_enum_iff_getElem?.mp hq
        have hq1len : q.1 < epochs.length := by
          cases hql : epochs[q.1]? with
          | none => rw [hql] at hq2; exact absurd hq2 (by simp)
          | some z =>
            by_contra hq
            rw [List.getElem?_eq_none (by omega)] at hql
            exact absurd hql (by simp)
        have hq3 : epochs.getD q.1 0 = q.2 := by
          rw [List.getD_eq_getElem epochs 0 hq1len]
          have := List.getElem?_eq_getElem hq1len
          rw [this] at hq2
          injection hq2
        have hq1n : q.1 < n := by rw [← hlen2]; exact hq1len
        have hqep : epochs.getD q.1 0 = e := by
          rw [hq3]
          rw [← hpq] at hpk
          exact hpk
        have : q.1 = pinv e := hinj_ep q.1 hq1n (pinv e) (hpinv e he).1
          (by rw [hqep, (hpinv e he).2])
        rw [← hpq]
        show city_map q.1 = city_map (pinv e)
        rw [this]
    have hmap2 : (List.range n).mapM
        (fun e => lookup_last (epochs.enum.map fun p => (p.2, city_map p.1)) e)
        = some ((List.range n).map fun e => city_map (pinv e)) :=
      option_mapM_map _ _ _ hlook
    have hnodup : ((List.range n).map fun e => city_map (pinv e)).Nodup := by
      apply List.Nodup.map_on ?_ (List.nodup_range n)
      intro x hx y hy hxy
      have hxn : x < n := List.mem_range.mp hx
      have hyn : y < n := List.mem_range.mp hy
      have : pinv x = pinv y := hinj (pinv x) (hpinv x hxn).1 (pinv y) (hpinv y hyn).1 hxy
      rw [← (hpinv x hxn).2, ← (hpinv y hyn).2, this]
    have hmem_city : ∀ i < n, city_map i ∈ (List.range n).map fun e => city_map (pinv e) := by
      intro i hi
      apply List.mem_map.mpr
      refine ⟨epochs.getD i 0, List.mem_range.mpr (hcell i hi).1, ?_⟩
      have hpe := hpinv (epochs.getD i 0) (hcell i hi).1
      have : pinv (epochs.getD i 0) = i := hinj_ep _ hpe.1 i hi hpe.2
      rw [this]
    refine ⟨hvalid, ?_⟩
    cases hpath : (List.range n).map (fun e => city_map (pinv e)) with
    | nil =>
      have : n = 0 := by
        have := congrArg List.length hpath
        rw [List.length_map, List.length_range] at this
        exact this
      omega
    | cons p0 rest2 =>
      refine ⟨(p0 :: rest2) ++ [p0], ?_, ?_, ?_, ?_⟩
      · unfold determine_path
        rw [hmm]
        simp only []
        rw [hmap2, hpath]
      · have hth := congrArg List.length hpath
        rw [List.length_map, List.length_range] at hth
        have hlenp : (p0 :: rest2).length = n := hth.symm
        rw [List.length_append, hlenp]
        rfl
      · have hlenp : (p0 :: rest2).length = n := by
          have := congrArg List.length hpath
          rw [List.length_map, List.length_range] at this
          exact this.symm
        rw [show ((p0 :: rest2) ++ [p0]).getD 0 (city_map 0) = p0 from rfl]
        rw [List.getD_eq_getElem?_getD, ← hlenp, List.getElem?_concat_length]
        rfl
      · intro i hi
        have hlenp : (p0 :: rest2).length = n := by
          have := congrArg List.length hpath
          rw [List.length_map, List.length_range] at this
          exact this.symm
        rw [← hlenp, List.take_left]
        rw [← hpath]
        exact List.count_eq_one_of_mem hnodup (hmem_city i hi)

/-- Concrete instantiation of `c4_round_trip` at the 2×2 identity permutation
grid: validity holds and the extracted tour is `[0, 1, 0]`. -/
theorem c4_witness :
    is_valid_path 2 [[true, false], [false, true]] [[true, false], [false, true]] = true
    ∧ ∃ path, determine_path 2 (fun i => i) [[true, false], [false, true]] = some path
      ∧ path.length = 2 + 1
      ∧ path.getD 0 0 = path.getD 2 0
      ∧ ∀ i < 2, (path.take 2).count i = 1 :=
  c4_round_trip ℕ 2 (fun i => i) [[true, false], [false, true]] (by decide) (by decide)
    (by decide) (by decide) (by decide) (by decide)

/-! ## Construction (`BoltzmannTsp.__init__`) -/

section Init

variable {C : Type} [LinearOrder C] [DecidableEq C] {α : Type} [LinearOrderedCommRing α]

/-- `BoltzmannTsp.lookup_weight`: distance lookup by indices through
`index_city_map`; `none` models the `KeyError` on an absent pair. -/
def lookup_weight (d : DistTable C α) (city_map : ℕ → C) (i j : ℕ) : Option α :=
  lookup2 d (city_map i) (city_map j)

/-- `BoltzmannTsp.calculate_weight` with the source's partial table lookup. -/
def calculate_weightO (penalty : α) (d : DistTable C α) (city_map : ℕ → C)
    (start_city start_epoch end_city end_epoch : ℕ) : Option α :=
  if start_city = end_city then some (if start_epoch ≠ end_epoch then penalty else 0)
  else if start_epoch = end_epoch then some penalty
  else if end_epoch = start_epoch + 1 then
    lookup_weight d city_map start_city end_city
  else some 0

/-- `BoltzmannTsp.calculate_concensus` with the source's partial lookups:
`none` models a `KeyError` escaping the scan. -/
def calculate_concensusO (penalty bonus : α) (d : DistTable C α) (city_map : ℕ → C)
    (dim : ℕ) (g : Grid) : Option α :=
  match (cellList g dim).mapM (fun c =>
    if c.2.2 then
      ((square_iter g dim 0 c.2.1).mapM fun e =>
        (calculate_weightO penalty d city_map c.1 c.2.1 e.1 e.2.1).map
          fun w => w * boolFac e.2.2).map List.sum
    else some 0) with
  | none => none
  | some terms => some (terms.sum - bonus * (num_enabled g dim : α))

end Init

/-- The state built by `BoltzmannTsp.__init__`. -/
structure InitState (C α : Type) where
  distances : DistTable C α
  cities : List C
  num_cities : ℕ
  net : Grid
  concensus : α

/-- `BoltzmannTsp.__init__` (after the JSON load): import and complete the
distances, sort the cities, build a random net (`rand` supplies the random
booleans) and compute the initial consensus.  The constructor performs no
validation of `penalty` against `bonus`. -/
def boltzmann_init {C : Type} [LinearOrder C] [DecidableEq C] [Inhabited C]
    {α : Type} [LinearOrderedCommRing α] (penalty bonus : α) (raw : DistTable C α)
    (rand : ℕ → ℕ → Bool) : Option (InitState C α) :=
  match import_distances raw with
  | none => none
  | some d =>
    match calculate_concensusO penalty bonus d
        (fun i => (sorted_cities raw).getD i default) (sorted_cities raw).length
        ((List.range (sorted_cities raw).length).map fun i =>
          (List.range (sorted_cities raw).length).map fun j => rand i j) with
    | none => none
    | some c =>
      some ⟨d, sorted_cities raw, (sorted_cities raw).length,
        (List.range (sorted_cities raw).length).map fun i =>
          (List.range (sorted_cities raw).length).map fun j => rand i j, c⟩

/-! ## Lemmas for claim C5 -/

theorem mem_square_iter (g : Grid) (dim sr sc : ℕ) (c : ℕ × ℕ × Bool)
    (h : c ∈ square_iter g dim sr sc) : c.1 < dim ∧ c.2.1 < dim := by
  unfold square_iter at h
  obtain ⟨i, hi, hc⟩ := List.mem_flatMap.mp h
  obtain ⟨j, hj, hcj⟩ := List.mem_map.mp hc
  have hi2 := List.mem_range'_1.mp hi
  have hj2 := List.mem_range'_1.mp hj
  rw [← hcj]
  exact ⟨by show i < dim; omega, by show j < dim; omega⟩

section InitLemmas

variable {C : Type} [DecidableEq C] {α : Type} [LinearOrderedCommRing α]

theorem calculate_concensusO_isSome (penalty bonus : α) (d : DistTable C α)
    (cm : ℕ → C) (dim : ℕ) (g : Grid)
    (hcomplete : ∀ i < dim, ∀ j < dim, i ≠ j → (lookup2 d (cm i) (cm j)).isSome) :
    (calculate_concensusO penalty bonus d cm dim g).isSome := by
  have hper : ∀ c ∈ cellList g dim,
      (if c.2.2 then
        ((square_iter g dim 0 c.2.1).mapM fun e =>
          (calculate_weightO penalty d cm c.1 c.2.1 e.1 e.2.1).map
            fun w => w * boolFac e.2.2).map List.sum
      else some 0).isSome := by
    intro c hc
    have hc2 := mem_square_iter g dim 0 0 c hc
    by_cases hv : c.2.2
    · rw [if_pos hv]
      have hinner : ∀ e ∈ square_iter g dim 0 c.2.1,
          ((calculate_weightO penalty d cm c.1 c.2.1 e.1 e.2.1).map
            fun w => w * boolFac e.2.2).isSome := by
        intro e he
        have he2 := mem_square_iter g dim 0 c.2.1 e he
        have hw : (calculate_weightO penalty d cm c.1 c.2.1 e.1 e.2.1).isSome := by
          unfold calculate_weightO
          by_cases h1 : c.1 = e.1
          · rw [if_pos h1]; rfl
          · rw [if_neg h1]
            by_cases h2 : c.2.1 = e.2.1
            · rw [if_pos h2]; rfl
            · rw [if_neg h2]
              by_cases h3 : e.2.1 = c.2.1 + 1
              · rw [if_pos h3]
                exact hcomplete c.1 hc2.1 e.1 he2.1 h1
              · rw [if_neg h3]; rfl
        cases hW : calculate_weightO penalty d cm c.1 c.2.1 e.1 e.2.1 with
        | none => rw [hW] at hw; exact absurd hw (by simp)
        | some w => rfl
      have hms := option_mapM_isSome _ (square_iter g dim 0 c.2.1) hinner
      cases hin : (square_iter g dim 0 c.2.1).mapM fun e =>
          (calculate_weightO penalty d cm c.1 c.2.1 e.1 e.2.1).map
            fun w => w * boolFac e.2.2 with
      | none => rw [hin] at hms; exact absurd hms (by simp)
      | some l => rfl
    · rw [if_neg hv]; rfl
  have hms := option_mapM_isSome _ (cellList g dim) hper
  unfold calculate_concensusO
  cases hmm2 : (cellList g dim).mapM fun c =>
      if c.2.2 then
        ((square_iter g dim 0 c.2.1).mapM fun e =>
          (calculate_weightO penalty d cm c.1 c.2.1 e.1 e.2.1).map
            fun w => w * boolFac e.2.2).map List.sum
      else some 0 with
  | none => rw [hmm2] at hms; exact absurd hms (by simp)
  | some terms => simp only [hmm2]; rfl

end InitLemmas

/-! ## Claim C5 -/

/-- Claim C5 (as stated) is false: with `penalty = 0 <= 1 = bonus` and a valid
two-city distance input, construction completes normally — `__init__` performs
no check of `penalty` against `bonus` (the only such check is the `assert` in
the `__main__` command-line block, outside the class). -/
theorem c5_counterexample :
    (boltzmann_init (0 : ℤ) 1 ([(0, [(1, 3)]), (1, [])] : DistTable ℕ ℤ)
      (fun _ _ => true)).isSome = true := by
  decide

/-- Claim C5, amended: `BoltzmannTsp.__init__` performs no validation of
`penalty` against `bonus`: for every `penalty` and `bonus` (in particular
`penalty <= bonus`), construction completes whenever the distance import
succeeds; the `penalty > bonus` requirement is only asserted by the
command-line entry script, not during model construction. -/
theorem c5_amended (C : Type) [LinearOrder C] [DecidableEq C] [Inhabited C]
    (α : Type) [LinearOrderedCommRing α] (penalty bonus : α) (raw : DistTable C α)
    (rand : ℕ → ℕ → Bool) (hnd : (keys raw).Nodup)
    (him : (import_distances raw).isSome) :
    (boltzmann_init penalty bonus raw rand).isSome := by
  cases hd : import_distances raw with
  | none => rw [hd] at him; exact absurd him (by simp)
  | some d =>
    have hperm : (sorted_cities raw).Perm (keys raw) := List.perm_insertionSort _ _
    have hnd2 : (sorted_cities raw).Nodup := (hperm.nodup_iff).mpr hnd
    have hcm_mem : ∀ i < (sorted_cities raw).length,
        (sorted_cities raw).getD i default ∈ keys raw := by
      intro i hi
      apply hperm.mem_iff.mp
      rw [List.getD_eq_getElem _ default hi]
      exact List.getElem_mem hi
    have hcm_cs : ∀ i < (sorted_cities raw).length,
        (sorted_cities raw).getD i default ∈ sorted_cities raw := by
      intro i hi
      rw [List.getD_eq_getElem _ default hi]
      exact List.getElem_mem hi
    have hcm_inj : ∀ i < (sorted_cities raw).length, ∀ j < (sorted_cities raw).length,
        (sorted_cities raw).getD i default = (sorted_cities raw).getD j default → i = j := by
      intro i hi j hj heq
      rw [List.getD_eq_getElem _ default hi, List.getD_eq_getElem _ default hj] at heq
      exact (List.Nodup.getElem_inj_iff hnd2).mp heq
    have hcomplete : ∀ i < (sorted_cities raw).length, ∀ j < (sorted_cities raw).length,
        i ≠ j → (lookup2 d ((sorted_cities raw).getD i default)
          ((sorted_cities raw).getD j default)).isSome := by
      intro i hi j hj hne
      obtain ⟨w, hw⟩ := import_pass_completes (sorted_cities raw) raw d
        ((sorted_cities raw).getD j default) ((sorted_cities raw).getD i default)
        (hcm_cs j hj) (hcm_mem i hi) (fun hh => hne (hcm_inj i hi j hj hh)) hd
      rw [hw]
      rfl
    have hcon := calculate_concensusO_isSome penalty bonus d
      (fun i => (sorted_cities raw).getD i default) (sorted_cities raw).length
      ((List.range (sorted_cities raw).length).map fun i =>
        (List.range (sorted_cities raw).length).map fun j => rand i j)
      hcomplete
    unfold boltzmann_init
    rw [hd]
    simp only []
    cases hcc : calculate_concensusO penalty bonus d
        (fun i => (sorted_cities raw).getD i default) (sorted_cities raw).length
        ((List.range (sorted_cities raw).length).map fun i =>
          (List.range (sorted_cities raw).length).map fun j => rand i j) with
    | none => rw [hcc] at hcon; exact absurd hcon (by simp)
    | some cval => simp only [hcc]; rfl

/-- Concrete instantiation of `c5_amended` with `penalty = 2 <= 5 = bonus`. -/
theorem c5_witness :
    (boltzmann_init (2 : ℤ) 5 ([(0, [(1, 3)]), (1, [])] : DistTable ℕ ℤ)
      (fun _ _ => false)).isSome = true :=
  c5_amended ℕ ℤ 2 5 [(0, [(1, 3)]), (1, [])] (fun _ _ => false) (by decide) (by decide)

end TSPB
